import Mathlib

/-!
Verification of the lexer in src/src/lexer/mod.rs (`Lexer`, its `Iterator::next`
implementation, and `from_text`).

The lexer is embedded shallowly: the input is a `List Char` (the Rust code
collects the text into a `Vec<char>` iterator), the mutable cursor becomes
explicit state passing, and each anchored regex of the source becomes a
matcher function returning the consumed span's payload and the remaining
input.  The recursive comment case of `next` is modelled with a fuel
parameter; fuel `≥` the length of the remaining input is always sufficient
(each comment consumes at least two characters), which is proved below
(`nextCore_fuel_irrel`) and used by the fuel choice in `Lexer.next`.

Note on the source regexes: `\d` is modelled as the ASCII digits `[0-9]`,
`.` (in the comment rule `^//.*`) matches every character except `'\n'`
(in particular it matches `'\r'`), and `[^"]` matches every character
except `'"'` (in particular it matches `'\r'` and `'\n'`).
-/

namespace PseudoLexer

/-- Modelled from the spec: the `Literal` payload type lives in the absent
`src/lexer/tokens.rs`; per §3 it has variants `Integer` (signed 32-bit) and
`Str` (unescaped contents between the delimiting quotes). -/
inductive Literal where
  | Integer : Int → Literal
  | Str : List Char → Literal
deriving DecidableEq, Repr

/-- Modelled from the spec: the `TokenKind` enum from the absent
`src/lexer/tokens.rs`, per §3 of the spec. -/
inductive TokenKind where
  | EndLine : TokenKind
  | Literal : PseudoLexer.Literal → TokenKind
  | Symbol : List Char → TokenKind
  | Identifier : List Char → TokenKind
deriving DecidableEq, Repr

instance : DecidableEq (Except (List Char) TokenKind) := fun a b =>
  match a, b with
  | Except.ok x, Except.ok y =>
    if h : x = y then isTrue (by rw [h]) else isFalse (by intro hc; cases hc; exact h rfl)
  | Except.error x, Except.error y =>
    if h : x = y then isTrue (by rw [h]) else isFalse (by intro hc; cases hc; exact h rfl)
  | Except.ok _, Except.error _ => isFalse (by intro hc; cases hc)
  | Except.error _, Except.ok _ => isFalse (by intro hc; cases hc)

/-- Modelled from the spec: the `Token` struct from the absent
`src/lexer/tokens.rs`; built by `Token::new(token_kind, self.line_count)`
in `Lexer::next`, carrying the (possibly failed) classification and the
1-based line number. -/
structure Token where
  token_kind : Except (List Char) TokenKind
  line : Nat
deriving DecidableEq, Repr

/-- ASCII decimal digit, the model of the source regex class `\d`. -/
def isDigitChar (c : Char) : Bool := 48 ≤ c.toNat && c.toNat ≤ 57

/-- The source regex class `[_a-zA-Z]` (identifier start). -/
def isIdentStartChar (c : Char) : Bool :=
  c.toNat = 95 || (65 ≤ c.toNat && c.toNat ≤ 90) || (97 ≤ c.toNat && c.toNat ≤ 122)

/-- The source regex class `[_a-zA-Z0-9]` (identifier continuation). -/
def isIdentChar (c : Char) : Bool := isIdentStartChar c || isDigitChar c

/-- The source regex `^[\r\n]` (rule 1, end of line): consumes exactly one
carriage-return or line-feed character. -/
def matchEndLine : List Char → Option (List Char)
  | [] => none
  | c :: rest => if c = '\r' ∨ c = '\n' then some rest else none

/-- The source regex `^\d+` (rule 2, integer literal): consumes the maximal
run of digits; returns the digit span and the remaining input. -/
def matchInteger : List Char → Option (List Char × List Char)
  | [] => none
  | c :: rest =>
    if isDigitChar c then
      some (c :: rest.takeWhile isDigitChar, rest.dropWhile isDigitChar)
    else none

/-- The source regex `^"[^"]*"` (rule 3, string literal): consumes an opening
quote, the maximal run of non-quote characters, and a closing quote; returns
the contents between the quotes (the source strips them via `&s[1..len-1]`)
and the remaining input.  Fails when no closing quote exists. -/
def matchString : List Char → Option (List Char × List Char)
  | [] => none
  | c :: rest =>
    if c = '"' then
      match rest.dropWhile (fun d => !(d == '"')) with
      | _ :: rem => some (rest.takeWhile (fun d => !(d == '"')), rem)
      | [] => none
    else none

/-- The source regex `^//.*` (rule 4, comment): consumes `//` and then every
following character that is not `'\n'` (the regex `.` matches `'\r'`);
returns the remaining input. -/
def matchComment : List Char → Option (List Char)
  | c1 :: c2 :: rest =>
    if c1 = '/' ∧ c2 = '/' then some (rest.dropWhile (fun d => !(d == '\n'))) else none
  | _ => none

/-- The source regex `^(<-|=)` (rule 5, symbol): consumes exactly `<-` or `=`;
returns the consumed text and the remaining input. -/
def matchSymbol : List Char → Option (List Char × List Char)
  | [] => none
  | [c] => if c = '=' then some (['='], []) else none
  | c :: c2 :: rest =>
    if c = '=' then some (['='], c2 :: rest)
    else if c = '<' ∧ c2 = '-' then some (['<', '-'], rest)
    else none

/-- The source regex `^[_a-zA-Z][_a-zA-Z0-9]*` (rule 6, identifier). -/
def matchIdentifier : List Char → Option (List Char × List Char)
  | [] => none
  | c :: rest =>
    if isIdentStartChar c then
      some (c :: rest.takeWhile isIdentChar, rest.dropWhile isIdentChar)
    else none

/-- Decimal value of a digit span, the value computed by
`t.as_str().parse::<i32>()` on a run of digits (no sign accepted). -/
def parseNat (ds : List Char) : Nat := ds.foldl (fun a c => 10 * a + (c.toNat - 48)) 0

/-- Largest `i32` value; a plain digit run parses into `i32` exactly when its
value is at most this bound (the lower bound is unreachable without a sign). -/
def i32Max : Nat := 2147483647

/-- The source error text `format!("Invalid Integer: {}", t.as_str())`. -/
def invalidIntegerMsg (ds : List Char) : List Char := "Invalid Integer: ".toList ++ ds

/-- The source error text `format!("Unexpected Token: '{}'", c)`. -/
def unexpectedTokenMsg (c : Char) : List Char :=
  "Unexpected Token: '".toList ++ [c] ++ "'".toList

/-- One pull of `Lexer::next` after the leading-space skip: `cs1` is the
remaining input with leading spaces already consumed (the `text` the source
matches its regexes against), `line` is `self.line_count`.  Returns the
produced `Option<Token>` together with the new remaining input and the new
line count.  The comment rule performs a nested pull
(`token_kind = self.next()?.token_kind`); that nested pull (including its
own leading-space skip) is the `recur` parameter, tied by `nextCore`
below. -/
def nextStep (recur : List Char → Nat → Option Token × List Char × Nat)
    (cs1 : List Char) (line : Nat) : Option Token × List Char × Nat :=
  match cs1 with
  | [] => (none, [], line)
  | c :: rest =>
    match matchEndLine (c :: rest) with
    | some rem => (some ⟨Except.ok TokenKind.EndLine, line + 1⟩, rem, line + 1)
    | none =>
      match matchInteger (c :: rest) with
      | some (ds, rem) =>
        if parseNat ds ≤ i32Max then
          (some ⟨Except.ok (TokenKind.Literal (Literal.Integer (parseNat ds))), line⟩, rem, line)
        else
          (some ⟨Except.error (invalidIntegerMsg ds), line⟩, rem, line)
      | none =>
        match matchString (c :: rest) with
        | some (s, rem) =>
          (some ⟨Except.ok (TokenKind.Literal (Literal.Str s)), line⟩, rem, line)
        | none =>
          match matchComment (c :: rest) with
          | some rem =>
            match recur (rem.dropWhile (fun d => d == ' ')) line with
            | (none, rem2, line2) => (none, rem2, line2)
            | (some t, rem2, line2) => (some ⟨t.token_kind, line2⟩, rem2, line2)
          | none =>
            match matchSymbol (c :: rest) with
            | some (s, rem) => (some ⟨Except.ok (TokenKind.Symbol s), line⟩, rem, line)
            | none =>
              match matchIdentifier (c :: rest) with
              | some (s, rem) =>
                (some ⟨Except.ok (TokenKind.Identifier s), line⟩, rem, line)
              | none =>
                (some ⟨Except.error (unexpectedTokenMsg c), line⟩, rest, line)

/-- `nextStep` with the comment recursion tied off by a fuel parameter.
Fuel `≥` the length of the remaining input is always sufficient (each
comment consumes at least two characters): see `nextCore_fuel_irrel`.
At fuel 0 the nested pull is cut off and behaves as end of input. -/
def nextCore : Nat → List Char → Nat → Option Token × List Char × Nat
  | 0 => nextStep (fun rem l => (none, rem, l))
  | fuel + 1 => nextStep (nextCore fuel)

/-- The `Lexer` struct of the source: the unconsumed input characters and the
running line counter. -/
structure Lexer where
  raw_data : List Char
  line_count : Nat
deriving DecidableEq, Repr

/-- `Lexer::from_text`: builds a lexer over the characters of the text with
`line_count` starting at 1. -/
def from_text (s : List Char) : Lexer := ⟨s, 1⟩

/-- A full pull of `Lexer::next`: skip leading spaces, then classify.  The
fuel `raw_data.length` is always sufficient for the comment recursion. -/
def Lexer.next (lx : Lexer) : Option Token × Lexer :=
  let r := nextCore lx.raw_data.length (lx.raw_data.dropWhile (fun c => c == ' ')) lx.line_count
  (r.1, ⟨r.2.1, r.2.2⟩)

/-- Iterated pulls: the list of tokens produced by at most `k` pulls,
together with the lexer state afterwards (a pull returning `None` stops the
iteration; its state is preserved by any further pull). -/
def pulls : Nat → Lexer → List Token × Lexer
  | 0, lx => ([], lx)
  | k + 1, lx =>
    match lx.next with
    | (none, lx') => ([], lx')
    | (some t, lx') =>
      let r := pulls k lx'
      (t :: r.1, r.2)

/-- The complete pull sequence on a fresh lexer: since every produced token
consumes at least one character, `length + 1` pulls always reach the
terminal. -/
def lex (cs : List Char) : List Token := (pulls (cs.length + 1) (from_text cs)).1

/-- Whether a produced token is the `EndLine` token. -/
def isEndLineTok (t : Token) : Bool :=
  match t.token_kind with
  | Except.ok TokenKind.EndLine => true
  | _ => false

/-- Number of `EndLine` tokens in a produced token list. -/
def countEndLine (ts : List Token) : Nat := (ts.filter isEndLineTok).length

/-- Number of end-of-line marker characters (carriage return or line feed)
in a character list. -/
def eolCount (cs : List Char) : Nat :=
  (cs.filter (fun c => c == '\r' || c == '\n')).length

/-- Outcome of one lexical rule at the cursor: either produce a classified
token kind (possibly a failure) together with the remaining input, or (the
comment rule) drop the consumed span and defer to the next pull. -/
inductive RuleOut where
  | produce : Except (List Char) TokenKind → List Char → RuleOut
  | skipComment : List Char → RuleOut
deriving DecidableEq, Repr

/-- Rule 1 of the spec's priority table (end of line). -/
def endLineRule (cs : List Char) : Option RuleOut :=
  (matchEndLine cs).map (fun rem => RuleOut.produce (Except.ok TokenKind.EndLine) rem)

/-- Rule 2 of the priority table (integer literal with the 32-bit check). -/
def integerRule (cs : List Char) : Option RuleOut :=
  (matchInteger cs).map (fun p =>
    RuleOut.produce
      (if parseNat p.1 ≤ i32Max then
        Except.ok (TokenKind.Literal (Literal.Integer (parseNat p.1)))
      else Except.error (invalidIntegerMsg p.1)) p.2)

/-- Rule 3 of the priority table (string literal). -/
def stringRule (cs : List Char) : Option RuleOut :=
  (matchString cs).map (fun p =>
    RuleOut.produce (Except.ok (TokenKind.Literal (Literal.Str p.1))) p.2)

/-- Rule 4 of the priority table (comment). -/
def commentRule (cs : List Char) : Option RuleOut :=
  (matchComment cs).map RuleOut.skipComment

/-- Rule 5 of the priority table (symbol). -/
def symbolRule (cs : List Char) : Option RuleOut :=
  (matchSymbol cs).map (fun p => RuleOut.produce (Except.ok (TokenKind.Symbol p.1)) p.2)

/-- Rule 6 of the priority table (identifier). -/
def identifierRule (cs : List Char) : Option RuleOut :=
  (matchIdentifier cs).map (fun p => RuleOut.produce (Except.ok (TokenKind.Identifier p.1)) p.2)

/-- The spec's rule table, in its fixed priority order. -/
def priorityRules : List (List Char → Option RuleOut) :=
  [endLineRule, integerRule, stringRule, commentRule, symbolRule, identifierRule]

/-- First-match-wins over an ordered rule list: each rule is anchored at the
cursor and the first rule that matches is taken (not the longest match). -/
def firstMatch : List (List Char → Option RuleOut) → List Char → Option RuleOut
  | [], _ => none
  | r :: rs, cs =>
    match r cs with
    | some out => some out
    | none => firstMatch rs cs

/-- Modelled from the spec (§4.1 rule-priority table): classification as the
spec words it — try the rules of `priorityRules` in strict priority order
with first-match-wins, `EndLine` incrementing the line counter, comments
deferring to the next pull, and the one-character unexpected-token fallback
otherwise.  Proved equal to the source's if/else chain in the C7 theorem. -/
def dispatchStep (recur : List Char → Nat → Option Token × List Char × Nat)
    (cs1 : List Char) (line : Nat) : Option Token × List Char × Nat :=
  match cs1 with
  | [] => (none, [], line)
  | c :: rest =>
    match firstMatch priorityRules (c :: rest) with
    | some (RuleOut.produce k rem) =>
      if k = Except.ok TokenKind.EndLine then (some ⟨k, line + 1⟩, rem, line + 1)
      else (some ⟨k, line⟩, rem, line)
    | some (RuleOut.skipComment rem) =>
      match recur (rem.dropWhile (fun d => d == ' ')) line with
      | (none, rem2, line2) => (none, rem2, line2)
      | (some t, rem2, line2) => (some ⟨t.token_kind, line2⟩, rem2, line2)
    | none => (some ⟨Except.error (unexpectedTokenMsg c), line⟩, rest, line)

/-- The spec-worded classification with the comment recursion tied off by
fuel, exactly parallel to `nextCore`. -/
def dispatchCore : Nat → List Char → Nat → Option Token × List Char × Nat
  | 0 => dispatchStep (fun rem l => (none, rem, l))
  | fuel + 1 => dispatchStep (dispatchCore fuel)

/-! ### List helpers -/

theorem length_dropWhile_le {α : Type} (p : α → Bool) (l : List α) :
    (l.dropWhile p).length ≤ l.length := by
  induction l with
  | nil => exact Nat.le_refl 0
  | cons a l ih =>
    rw [List.dropWhile_cons]
    split
    · exact Nat.le_trans ih (Nat.le_succ _)
    · exact Nat.le_refl _

theorem mem_of_mem_dropWhile {α : Type} {p : α → Bool} {a : α} {l : List α}
    (h : a ∈ l.dropWhile p) : a ∈ l := by
  induction l with
  | nil => exact absurd h (by simp [List.dropWhile])
  | cons b l ih =>
    rw [List.dropWhile_cons] at h
    split at h
    · exact List.mem_cons_of_mem _ (ih h)
    · exact h

theorem takeWhile_all {α : Type} {p : α → Bool} {l : List α}
    (h : ∀ a ∈ l, p a = true) : l.takeWhile p = l :=
  List.takeWhile_eq_self_iff.mpr h

theorem dropWhile_all {α : Type} {p : α → Bool} {l : List α}
    (h : ∀ a ∈ l, p a = true) : l.dropWhile p = [] :=
  List.dropWhile_eq_nil_iff.mpr h

theorem takeWhile_append_all {α : Type} {p : α → Bool} {l1 : List α} (l2 : List α)
    (h : ∀ a ∈ l1, p a = true) : (l1 ++ l2).takeWhile p = l1 ++ l2.takeWhile p := by
  induction l1 with
  | nil => rfl
  | cons a l ih =>
    simp only [List.cons_append, List.takeWhile_cons]
    rw [if_pos (h a (List.mem_cons_self a l)), ih (fun b hb => h b (List.mem_cons_of_mem a hb))]

theorem dropWhile_append_all {α : Type} {p : α → Bool} {l1 : List α} (l2 : List α)
    (h : ∀ a ∈ l1, p a = true) : (l1 ++ l2).dropWhile p = l2.dropWhile p := by
  induction l1 with
  | nil => rfl
  | cons a l ih =>
    simp only [List.cons_append, List.dropWhile_cons]
    rw [if_pos (h a (List.mem_cons_self a l))]
    exact ih (fun b hb => h b (List.mem_cons_of_mem a hb))

/-! ### Character class facts -/

theorem digit_not_eol {c : Char} (h : isDigitChar c = true) : ¬(c = '\r' ∨ c = '\n') := by
  intro hc
  rcases hc with hc | hc <;> subst hc <;> exact absurd h (by decide)

theorem digit_not_space {c : Char} (h : isDigitChar c = true) : (c == ' ') = false := by
  by_cases hc : c = ' '
  · subst hc; exact absurd h (by decide)
  · exact beq_false_of_ne hc

theorem digit_ne_quote {c : Char} (h : isDigitChar c = true) : ¬(c = '"') := by
  intro hc; subst hc; exact absurd h (by decide)

theorem digit_ne_slash {c : Char} (h : isDigitChar c = true) : ¬(c = '/') := by
  intro hc; subst hc; exact absurd h (by decide)

theorem digit_not_identStart {c : Char} (h : isDigitChar c = true) :
    isIdentStartChar c = false := by
  simp only [isDigitChar, Bool.and_eq_true, decide_eq_true_eq] at h
  simp only [isIdentStartChar, Bool.or_eq_false_iff, Bool.and_eq_false_iff,
    decide_eq_false_iff_not]
  omega

/-! ### Matcher characterizations -/

theorem matchEndLine_some {c : Char} {rest rem : List Char}
    (h : matchEndLine (c :: rest) = some rem) : rem = rest ∧ (c = '\r' ∨ c = '\n') := by
  simp only [matchEndLine] at h
  split at h
  · cases h; exact ⟨rfl, by assumption⟩
  · cases h

theorem matchEndLine_none_of_not_eol {c : Char} (rest : List Char)
    (h : ¬(c = '\r' ∨ c = '\n')) : matchEndLine (c :: rest) = none := by
  simp only [matchEndLine]
  exact if_neg h

theorem matchInteger_some {c : Char} {rest ds rem : List Char}
    (h : matchInteger (c :: rest) = some (ds, rem)) :
    isDigitChar c = true ∧ ds = c :: rest.takeWhile isDigitChar ∧
      rem = rest.dropWhile isDigitChar := by
  simp only [matchInteger] at h
  split at h
  · cases h; exact ⟨by assumption, rfl, rfl⟩
  · cases h

theorem matchInteger_none_of_not_digit {c : Char} (rest : List Char)
    (h : isDigitChar c = false) : matchInteger (c :: rest) = none := by
  simp only [matchInteger]
  rw [if_neg]
  simp [h]

theorem matchString_some {c : Char} {rest s rem : List Char}
    (h : matchString (c :: rest) = some (s, rem)) :
    c = '"' ∧ s = rest.takeWhile (fun d => !(d == '"')) ∧
      ∃ d, rest.dropWhile (fun d => !(d == '"')) = d :: rem := by
  simp only [matchString] at h
  split at h
  · rename_i hc
    split at h
    · rename_i d rem' heq
      cases h
      exact ⟨hc, rfl, d, heq⟩
    · cases h
  · cases h

theorem matchString_none_of_ne_quote {c : Char} (rest : List Char)
    (h : ¬(c = '"')) : matchString (c :: rest) = none := by
  simp only [matchString]
  exact if_neg h

theorem matchComment_some {cs rem : List Char} (h : matchComment cs = some rem) :
    ∃ rest, cs = '/' :: '/' :: rest ∧ rem = rest.dropWhile (fun d => !(d == '\n')) := by
  match cs with
  | [] => exact absurd h (by simp [matchComment])
  | [c] => exact absurd h (by simp [matchComment])
  | c1 :: c2 :: rest =>
    simp only [matchComment] at h
    split at h
    · rename_i hc
      cases h
      exact ⟨rest, by rw [hc.1, hc.2], rfl⟩
    · cases h

theorem matchComment_none_of_ne_slash {c : Char} (rest : List Char)
    (h : ¬(c = '/')) : matchComment (c :: rest) = none := by
  match rest with
  | [] => rfl
  | c2 :: rest2 =>
    simp only [matchComment]
    exact if_neg (fun hc => h hc.1)

theorem matchSymbol_some_length {cs s rem : List Char}
    (h : matchSymbol cs = some (s, rem)) : rem.length < cs.length := by
  match cs with
  | [] => exact absurd h (by simp [matchSymbol])
  | [c] =>
    simp only [matchSymbol] at h
    split at h
    · cases h; exact Nat.lt_succ_self _
    · cases h
  | c :: c2 :: rest =>
    simp only [matchSymbol] at h
    split at h
    · cases h; exact Nat.lt_succ_self _
    · split at h
      · cases h
        exact Nat.lt_trans (Nat.lt_succ_self _) (Nat.lt_succ_self _)
      · cases h

theorem matchSymbol_none_of_head {c : Char} (rest : List Char)
    (h1 : ¬(c = '=')) (h2 : ¬(c = '<')) : matchSymbol (c :: rest) = none := by
  match rest with
  | [] =>
    simp only [matchSymbol]
    exact if_neg h1
  | c2 :: rest2 =>
    simp only [matchSymbol]
    rw [if_neg h1, if_neg (fun hc => h2 hc.1)]

theorem matchIdentifier_some {c : Char} {rest s rem : List Char}
    (h : matchIdentifier (c :: rest) = some (s, rem)) :
    isIdentStartChar c = true ∧ s = c :: rest.takeWhile isIdentChar ∧
      rem = rest.dropWhile isIdentChar := by
  simp only [matchIdentifier] at h
  split at h
  · cases h; exact ⟨by assumption, rfl, rfl⟩
  · cases h

theorem matchIdentifier_none_of_not_start {c : Char} (rest : List Char)
    (h : isIdentStartChar c = false) : matchIdentifier (c :: rest) = none := by
  simp only [matchIdentifier]
  rw [if_neg]
  simp [h]

/-! ### Branch equations for `nextStep` and `nextCore` -/

theorem nextStep_nil (recur : List Char → Nat → Option Token × List Char × Nat)
    (line : Nat) : nextStep recur [] line = (none, [], line) := rfl

theorem nextStep_eol {c : Char} {rest rem : List Char}
    (recur : List Char → Nat → Option Token × List Char × Nat) (line : Nat)
    (hE : matchEndLine (c :: rest) = some rem) :
    nextStep recur (c :: rest) line =
      (some ⟨Except.ok TokenKind.EndLine, line + 1⟩, rem, line + 1) := by
  simp only [nextStep]
  rw [hE]

theorem nextStep_int {c : Char} {rest ds rem : List Char}
    (recur : List Char → Nat → Option Token × List Char × Nat) (line : Nat)
    (hE : matchEndLine (c :: rest) = none)
    (hI : matchInteger (c :: rest) = some (ds, rem)) :
    nextStep recur (c :: rest) line =
      if parseNat ds ≤ i32Max then
        (some ⟨Except.ok (TokenKind.Literal (Literal.Integer (parseNat ds))), line⟩, rem, line)
      else
        (some ⟨Except.error (invalidIntegerMsg ds), line⟩, rem, line) := by
  simp only [nextStep]
  rw [hE, hI]

theorem nextStep_str {c : Char} {rest s rem : List Char}
    (recur : List Char → Nat → Option Token × List Char × Nat) (line : Nat)
    (hE : matchEndLine (c :: rest) = none) (hI : matchInteger (c :: rest) = none)
    (hS : matchString (c :: rest) = some (s, rem)) :
    nextStep recur (c :: rest) line =
      (some ⟨Except.ok (TokenKind.Literal (Literal.Str s)), line⟩, rem, line) := by
  simp only [nextStep]
  rw [hE, hI, hS]

theorem nextStep_comment {c : Char} {rest rem : List Char}
    (recur : List Char → Nat → Option Token × List Char × Nat) (line : Nat)
    (hE : matchEndLine (c :: rest) = none) (hI : matchInteger (c :: rest) = none)
    (hS : matchString (c :: rest) = none)
    (hC : matchComment (c :: rest) = some rem) :
    nextStep recur (c :: rest) line =
      match recur (rem.dropWhile (fun d => d == ' ')) line with
      | (none, rem2, line2) => (none, rem2, line2)
      | (some t, rem2, line2) => (some ⟨t.token_kind, line2⟩, rem2, line2) := by
  simp only [nextStep]
  rw [hE, hI, hS, hC]

theorem nextStep_sym {c : Char} {rest s rem : List Char}
    (recur : List Char → Nat → Option Token × List Char × Nat) (line : Nat)
    (hE : matchEndLine (c :: rest) = none) (hI : matchInteger (c :: rest) = none)
    (hS : matchString (c :: rest) = none) (hC : matchComment (c :: rest) = none)
    (hY : matchSymbol (c :: rest) = some (s, rem)) :
    nextStep recur (c :: rest) line =
      (some ⟨Except.ok (TokenKind.Symbol s), line⟩, rem, line) := by
  simp only [nextStep]
  rw [hE, hI, hS, hC, hY]

theorem nextStep_ident {c : Char} {rest s rem : List Char}
    (recur : List Char → Nat → Option Token × List Char × Nat) (line : Nat)
    (hE : matchEndLine (c :: rest) = none) (hI : matchInteger (c :: rest) = none)
    (hS : matchString (c :: rest) = none) (hC : matchComment (c :: rest) = none)
    (hY : matchSymbol (c :: rest) = none)
    (hId : matchIdentifier (c :: rest) = some (s, rem)) :
    nextStep recur (c :: rest) line =
      (some ⟨Except.ok (TokenKind.Identifier s), line⟩, rem, line) := by
  simp only [nextStep]
  rw [hE, hI, hS, hC, hY, hId]

theorem nextStep_err {c : Char} {rest : List Char}
    (recur : List Char → Nat → Option Token × List Char × Nat) (line : Nat)
    (hE : matchEndLine (c :: rest) = none) (hI : matchInteger (c :: rest) = none)
    (hS : matchString (c :: rest) = none) (hC : matchComment (c :: rest) = none)
    (hY : matchSymbol (c :: rest) = none) (hId : matchIdentifier (c :: rest) = none) :
    nextStep recur (c :: rest) line =
      (some ⟨Except.error (unexpectedTokenMsg c), line⟩, rest, line) := by
  simp only [nextStep]
  rw [hE, hI, hS, hC, hY, hId]

theorem nextCore_zero (cs1 : List Char) (line : Nat) :
    nextCore 0 cs1 line = nextStep (fun rem l => (none, rem, l)) cs1 line := rfl

theorem nextCore_succ (fuel : Nat) (cs1 : List Char) (line : Nat) :
    nextCore (fuel + 1) cs1 line = nextStep (nextCore fuel) cs1 line := rfl

theorem nextCore_nil (fuel line : Nat) : nextCore fuel [] line = (none, [], line) := by
  cases fuel <;> rfl

/-! ### Line-count evolution -/

theorem nextStep_line (recur : List Char → Nat → Option Token × List Char × Nat)
    (hrec : ∀ cs l,
      ((recur cs l).1 = none → (recur cs l).2.2 = l) ∧
      (∀ t, (recur cs l).1 = some t →
        t.line = (recur cs l).2.2 ∧
        (recur cs l).2.2 = l + (if isEndLineTok t then 1 else 0)))
    (cs1 : List Char) (line : Nat) :
    ((nextStep recur cs1 line).1 = none → (nextStep recur cs1 line).2.2 = line) ∧
    (∀ t, (nextStep recur cs1 line).1 = some t →
      t.line = (nextStep recur cs1 line).2.2 ∧
      (nextStep recur cs1 line).2.2 = line + (if isEndLineTok t then 1 else 0)) := by
  match cs1 with
  | [] =>
    rw [nextStep_nil]
    exact ⟨fun _ => rfl, fun t ht => Option.noConfusion ht⟩
  | c :: rest =>
    cases hE : matchEndLine (c :: rest) with
    | some rem =>
      rw [nextStep_eol recur line hE]
      refine ⟨fun h => Option.noConfusion h, fun t ht => ?_⟩
      simp only [Option.some.injEq] at ht
      subst ht
      exact ⟨rfl, by simp [isEndLineTok]⟩
    | none =>
    cases hI : matchInteger (c :: rest) with
    | some p =>
      obtain ⟨ds, rem⟩ := p
      rw [nextStep_int recur line hE hI]
      split
      · refine ⟨fun h => Option.noConfusion h, fun t ht => ?_⟩
        simp only [Option.some.injEq] at ht
        subst ht
        exact ⟨rfl, by simp [isEndLineTok]⟩
      · refine ⟨fun h => Option.noConfusion h, fun t ht => ?_⟩
        simp only [Option.some.injEq] at ht
        subst ht
        exact ⟨rfl, by simp [isEndLineTok]⟩
    | none =>
    cases hS : matchString (c :: rest) with
    | some p =>
      obtain ⟨s, rem⟩ := p
      rw [nextStep_str recur line hE hI hS]
      refine ⟨fun h => Option.noConfusion h, fun t ht => ?_⟩
      simp only [Option.some.injEq] at ht
      subst ht
      exact ⟨rfl, by simp [isEndLineTok]⟩
    | none =>
    cases hC : matchComment (c :: rest) with
    | some rem =>
      rw [nextStep_comment recur line hE hI hS hC]
      rcases hr : recur (rem.dropWhile (fun d => d == ' ')) line with ⟨ro, rem2, line2⟩
      have hrec' := hrec (rem.dropWhile (fun d => d == ' ')) line
      rw [hr] at hrec'
      cases ro with
      | none =>
        refine ⟨fun _ => hrec'.1 rfl, fun t ht => Option.noConfusion ht⟩
      | some t' =>
        refine ⟨fun h => Option.noConfusion h, fun t ht => ?_⟩
        simp only [Option.some.injEq] at ht
        subst ht
        obtain ⟨_, h2⟩ := hrec'.2 t' rfl
        exact ⟨rfl, by simpa [isEndLineTok] using h2⟩
    | none =>
    cases hY : matchSymbol (c :: rest) with
    | some p =>
      obtain ⟨s, rem⟩ := p
      rw [nextStep_sym recur line hE hI hS hC hY]
      refine ⟨fun h => Option.noConfusion h, fun t ht => ?_⟩
      simp only [Option.some.injEq] at ht
      subst ht
      exact ⟨rfl, by simp [isEndLineTok]⟩
    | none =>
    cases hId : matchIdentifier (c :: rest) with
    | some p =>
      obtain ⟨s, rem⟩ := p
      rw [nextStep_ident recur line hE hI hS hC hY hId]
      refine ⟨fun h => Option.noConfusion h, fun t ht => ?_⟩
      simp only [Option.some.injEq] at ht
      subst ht
      exact ⟨rfl, by simp [isEndLineTok]⟩
    | none =>
      rw [nextStep_err recur line hE hI hS hC hY hId]
      refine ⟨fun h => Option.noConfusion h, fun t ht => ?_⟩
      simp only [Option.some.injEq] at ht
      subst ht
      exact ⟨rfl, by simp [isEndLineTok]⟩

theorem nextCore_line (fuel : Nat) (cs1 : List Char) (line : Nat) :
    ((nextCore fuel cs1 line).1 = none → (nextCore fuel cs1 line).2.2 = line) ∧
    (∀ t, (nextCore fuel cs1 line).1 = some t →
      t.line = (nextCore fuel cs1 line).2.2 ∧
      (nextCore fuel cs1 line).2.2 = line + (if isEndLineTok t then 1 else 0)) := by
  induction fuel generalizing cs1 line with
  | zero =>
    rw [nextCore_zero]
    exact nextStep_line _ (fun cs l => ⟨fun _ => rfl, fun t ht => Option.noConfusion ht⟩) cs1 line
  | succ fuel ih =>
    rw [nextCore_succ]
    exact nextStep_line _ (fun cs l => ih cs l) cs1 line

/-! ### Consumption: every produced token consumed at least one character -/

theorem nextStep_consume (recur : List Char → Nat → Option Token × List Char × Nat)
    (hrec : ∀ cs l t cs' l', recur cs l = (some t, cs', l') → cs'.length < cs.length)
    {cs1 : List Char} {line : Nat} {t : Token} {cs2 : List Char} {l2 : Nat}
    (h : nextStep recur cs1 line = (some t, cs2, l2)) : cs2.length < cs1.length := by
  match cs1 with
  | [] =>
    rw [nextStep_nil] at h
    simp at h
  | c :: rest =>
    cases hE : matchEndLine (c :: rest) with
    | some rem =>
      rw [nextStep_eol recur line hE] at h
      obtain ⟨hrem, _⟩ := matchEndLine_some hE
      simp only [Prod.mk.injEq] at h
      rw [← h.2.1, hrem]
      exact Nat.lt_succ_self _
    | none =>
    cases hI : matchInteger (c :: rest) with
    | some p =>
      obtain ⟨ds, rem⟩ := p
      rw [nextStep_int recur line hE hI] at h
      obtain ⟨_, _, hrem⟩ := matchInteger_some hI
      have hcs2 : cs2 = rem := by
        split at h <;> simp only [Prod.mk.injEq] at h <;> exact h.2.1.symm
      rw [hcs2, hrem]
      exact Nat.lt_succ_of_le (length_dropWhile_le _ _)
    | none =>
    cases hS : matchString (c :: rest) with
    | some p =>
      obtain ⟨s, rem⟩ := p
      rw [nextStep_str recur line hE hI hS] at h
      obtain ⟨_, _, d, hd⟩ := matchString_some hS
      simp only [Prod.mk.injEq] at h
      rw [← h.2.1]
      have h1 : (d :: rem).length ≤ rest.length := by
        rw [← hd]; exact length_dropWhile_le _ _
      simp only [List.length_cons] at h1 ⊢
      omega
    | none =>
    cases hC : matchComment (c :: rest) with
    | some rem =>
      rw [nextStep_comment recur line hE hI hS hC] at h
      obtain ⟨rest0, hshape, hrem⟩ := matchComment_some hC
      rcases hr : recur (rem.dropWhile (fun d => d == ' ')) line with ⟨ro, rem2, line2⟩
      rw [hr] at h
      cases ro with
      | none => simp at h
      | some t' =>
        simp only [Prod.mk.injEq] at h
        rw [← h.2.1]
        have h1 : rem2.length < (rem.dropWhile (fun d => d == ' ')).length :=
          hrec _ _ _ _ _ hr
        have h2 : (rem.dropWhile (fun d => d == ' ')).length ≤ rem.length :=
          length_dropWhile_le _ _
        have h3 : rem.length ≤ rest0.length := by
          rw [hrem]; exact length_dropWhile_le _ _
        have h4 : (c :: rest).length = rest0.length + 2 := by
          rw [hshape]; simp
        omega
    | none =>
    cases hY : matchSymbol (c :: rest) with
    | some p =>
      obtain ⟨s, rem⟩ := p
      rw [nextStep_sym recur line hE hI hS hC hY] at h
      simp only [Prod.mk.injEq] at h
      rw [← h.2.1]
      exact matchSymbol_some_length hY
    | none =>
    cases hId : matchIdentifier (c :: rest) with
    | some p =>
      obtain ⟨s, rem⟩ := p
      rw [nextStep_ident recur line hE hI hS hC hY hId] at h
      obtain ⟨_, _, hrem⟩ := matchIdentifier_some hId
      simp only [Prod.mk.injEq] at h
      rw [← h.2.1, hrem]
      exact Nat.lt_succ_of_le (length_dropWhile_le _ _)
    | none =>
      rw [nextStep_err recur line hE hI hS hC hY hId] at h
      simp only [Prod.mk.injEq] at h
      rw [← h.2.1]
      exact Nat.lt_succ_self _

theorem nextCore_consume (fuel : Nat) {cs1 : List Char} {line : Nat} {t : Token}
    {cs2 : List Char} {l2 : Nat}
    (h : nextCore fuel cs1 line = (some t, cs2, l2)) : cs2.length < cs1.length := by
  induction fuel generalizing cs1 line t cs2 l2 with
  | zero =>
    rw [nextCore_zero] at h
    refine nextStep_consume _ (fun cs l t' cs' l' h' => ?_) h
    simp at h'
  | succ fuel ih =>
    rw [nextCore_succ] at h
    exact nextStep_consume _ (fun cs l t' cs' l' h' => ih h') h

/-! ### Fuel: any fuel at least the remaining length gives the same result -/

theorem nextCore_fuel_irrel (f : Nat) : ∀ (g : Nat) (cs1 : List Char) (line : Nat),
    cs1.length ≤ f → cs1.length ≤ g → nextCore f cs1 line = nextCore g cs1 line := by
  induction f with
  | zero =>
    intro g cs1 line hf hg
    match cs1 with
    | [] => rw [nextCore_nil, nextCore_nil]
    | c :: rest => simp at hf
  | succ f ih =>
    intro g cs1 line hf hg
    match cs1 with
    | [] => rw [nextCore_nil, nextCore_nil]
    | c :: rest =>
      cases g with
      | zero => simp at hg
      | succ g' =>
        rw [nextCore_succ, nextCore_succ]
        cases hE : matchEndLine (c :: rest) with
        | some rem => rw [nextStep_eol _ line hE, nextStep_eol _ line hE]
        | none =>
        cases hI : matchInteger (c :: rest) with
        | some p =>
          obtain ⟨ds, rem⟩ := p
          rw [nextStep_int _ line hE hI, nextStep_int _ line hE hI]
        | none =>
        cases hS : matchString (c :: rest) with
        | some p =>
          obtain ⟨s, rem⟩ := p
          rw [nextStep_str _ line hE hI hS, nextStep_str _ line hE hI hS]
        | none =>
        cases hC : matchComment (c :: rest) with
        | some rem =>
          rw [nextStep_comment _ line hE hI hS hC, nextStep_comment _ line hE hI hS hC]
          obtain ⟨rest0, hshape, hrem⟩ := matchComment_some hC
          have h4 : (c :: rest).length = rest0.length + 2 := by
            rw [hshape]; simp
          have h5 : (rem.dropWhile (fun d => d == ' ')).length ≤ rest0.length := by
            apply Nat.le_trans (length_dropWhile_le _ _)
            rw [hrem]; exact length_dropWhile_le _ _
          rw [ih g' (rem.dropWhile (fun d => d == ' ')) line (by omega) (by omega)]
        | none =>
        cases hY : matchSymbol (c :: rest) with
        | some p =>
          obtain ⟨s, rem⟩ := p
          rw [nextStep_sym _ line hE hI hS hC hY, nextStep_sym _ line hE hI hS hC hY]
        | none =>
        cases hId : matchIdentifier (c :: rest) with
        | some p =>
          obtain ⟨s, rem⟩ := p
          rw [nextStep_ident _ line hE hI hS hC hY hId, nextStep_ident _ line hE hI hS hC hY hId]
        | none =>
          rw [nextStep_err _ line hE hI hS hC hY hId, nextStep_err _ line hE hI hS hC hY hId]

/-! ### With sufficient fuel, a terminal pull leaves no input behind -/

theorem nextCore_none_rem (fuel : Nat) : ∀ (cs1 : List Char) (line : Nat),
    cs1.length ≤ fuel → (nextCore fuel cs1 line).1 = none →
    (nextCore fuel cs1 line).2.1 = [] := by
  induction fuel with
  | zero =>
    intro cs1 line hf _
    match cs1 with
    | [] => rw [nextCore_nil]
    | c :: rest => simp at hf
  | succ fuel ih =>
    intro cs1 line hf h
    match cs1 with
    | [] => rw [nextCore_nil]
    | c :: rest =>
      rw [nextCore_succ] at h ⊢
      cases hE : matchEndLine (c :: rest) with
      | some rem => rw [nextStep_eol _ line hE] at h; cases h
      | none =>
      cases hI : matchInteger (c :: rest) with
      | some p =>
        obtain ⟨ds, rem⟩ := p
        rw [nextStep_int _ line hE hI] at h
        split at h <;> cases h
      | none =>
      cases hS : matchString (c :: rest) with
      | some p =>
        obtain ⟨s, rem⟩ := p
        rw [nextStep_str _ line hE hI hS] at h; cases h
      | none =>
      cases hC : matchComment (c :: rest) with
      | some rem =>
        rw [nextStep_comment _ line hE hI hS hC] at h ⊢
        obtain ⟨rest0, hshape, hrem⟩ := matchComment_some hC
        have h4 : (c :: rest).length = rest0.length + 2 := by
          rw [hshape]; simp
        have h5 : (rem.dropWhile (fun d => d == ' ')).length ≤ rest0.length := by
          apply Nat.le_trans (length_dropWhile_le _ _)
          rw [hrem]; exact length_dropWhile_le _ _
        split at h
        · rename_i rem2 line2 heq
          simp only [heq]
          have hih := ih (rem.dropWhile (fun d => d == ' ')) line (by omega)
          rw [heq] at hih
          exact hih rfl
        · exact Option.noConfusion h
      | none =>
      cases hY : matchSymbol (c :: rest) with
      | some p =>
        obtain ⟨s, rem⟩ := p
        rw [nextStep_sym _ line hE hI hS hC hY] at h; cases h
      | none =>
      cases hId : matchIdentifier (c :: rest) with
      | some p =>
        obtain ⟨s, rem⟩ := p
        rw [nextStep_ident _ line hE hI hS hC hY hId] at h; cases h
      | none =>
        rw [nextStep_err _ line hE hI hS hC hY hId] at h; cases h

/-! ### The `Lexer.next` wrapper -/

theorem Lexer.next_eq (lx : Lexer) :
    lx.next =
      ((nextCore lx.raw_data.length (lx.raw_data.dropWhile (fun c => c == ' ')) lx.line_count).1,
       ⟨(nextCore lx.raw_data.length (lx.raw_data.dropWhile (fun c => c == ' ')) lx.line_count).2.1,
        (nextCore lx.raw_data.length (lx.raw_data.dropWhile (fun c => c == ' ')) lx.line_count).2.2⟩) :=
  rfl

theorem next_none_line {lx lx' : Lexer} (h : lx.next = (none, lx')) :
    lx' = ⟨[], lx.line_count⟩ := by
  rw [Lexer.next_eq] at h
  simp only [Prod.mk.injEq] at h
  obtain ⟨h1, h2⟩ := h
  have hlen : (lx.raw_data.dropWhile (fun c => c == ' ')).length ≤ lx.raw_data.length :=
    length_dropWhile_le _ _
  have hrem := nextCore_none_rem lx.raw_data.length _ lx.line_count hlen h1
  have hline := (nextCore_line lx.raw_data.length _ lx.line_count).1 h1
  rw [← h2, hrem, hline]

theorem next_some_line {lx : Lexer} {t : Token} {lx' : Lexer} (h : lx.next = (some t, lx')) :
    t.line = lx'.line_count ∧
    lx'.line_count = lx.line_count + (if isEndLineTok t then 1 else 0) := by
  rw [Lexer.next_eq] at h
  simp only [Prod.mk.injEq] at h
  obtain ⟨h1, h2⟩ := h
  have := (nextCore_line lx.raw_data.length _ lx.line_count).2 t h1
  rw [← h2]
  exact this

theorem next_some_length {lx : Lexer} {t : Token} {lx' : Lexer} (h : lx.next = (some t, lx')) :
    lx'.raw_data.length < lx.raw_data.length := by
  rw [Lexer.next_eq] at h
  simp only [Prod.mk.injEq] at h
  obtain ⟨h1, h2⟩ := h
  have hr : nextCore lx.raw_data.length (lx.raw_data.dropWhile (fun c => c == ' ')) lx.line_count
      = (some t,
         (nextCore lx.raw_data.length (lx.raw_data.dropWhile (fun c => c == ' ')) lx.line_count).2.1,
         (nextCore lx.raw_data.length (lx.raw_data.dropWhile (fun c => c == ' ')) lx.line_count).2.2) := by
    rw [← h1]
  have hlt := nextCore_consume _ hr
  rw [← h2]
  exact Nat.lt_of_lt_of_le hlt (length_dropWhile_le _ _)

/-! ### Iterated pulls -/

theorem countEndLine_nil : countEndLine [] = 0 := rfl

theorem countEndLine_cons (t : Token) (ts : List Token) :
    countEndLine (t :: ts) = (if isEndLineTok t then 1 else 0) + countEndLine ts := by
  simp only [countEndLine, List.filter_cons]
  split
  · rw [List.length_cons]; omega
  · omega

theorem pulls_nil (k line : Nat) : pulls k ⟨[], line⟩ = ([], ⟨[], line⟩) := by
  induction k with
  | zero => rfl
  | succ k ih =>
    simp [pulls, show (Lexer.mk [] line).next = (none, ⟨[], line⟩) from rfl]

theorem pulls_line (k : Nat) (lx : Lexer) :
    (pulls k lx).2.line_count = lx.line_count + countEndLine (pulls k lx).1 := by
  induction k generalizing lx with
  | zero => simp [pulls, countEndLine]
  | succ k ih =>
    rcases hn : lx.next with ⟨ro, lx'⟩
    cases ro with
    | none =>
      have hl := next_none_line hn
      simp only [pulls, hn]
      rw [hl]
      simp [countEndLine]
    | some t =>
      simp only [pulls, hn]
      rw [ih lx', countEndLine_cons, (next_some_line hn).2]
      omega

theorem pulls_append (a b : Nat) (lx : Lexer) :
    pulls (a + b) lx =
      ((pulls a lx).1 ++ (pulls b (pulls a lx).2).1, (pulls b (pulls a lx).2).2) := by
  induction a generalizing lx with
  | zero => simp [pulls]
  | succ a ih =>
    have hadd : a + 1 + b = (a + b) + 1 := by omega
    rw [hadd]
    rcases hn : lx.next with ⟨ro, lx'⟩
    cases ro with
    | none =>
      have hlx' := next_none_line hn
      simp only [pulls, hn]
      subst hlx'
      rw [pulls_nil]
      simp
    | some t =>
      simp only [pulls, hn]
      rw [ih lx']
      simp

theorem pulls_state_add (a b : Nat) (lx : Lexer) :
    (pulls (a + b) lx).2 = (pulls b (pulls a lx).2).2 := by
  rw [pulls_append]

theorem pulls_line_mono {j k : Nat} (h : j ≤ k) (lx : Lexer) :
    (pulls j lx).2.line_count ≤ (pulls k lx).2.line_count := by
  obtain ⟨m, rfl⟩ := Nat.exists_eq_add_of_le h
  rw [pulls_state_add]
  have := pulls_line m (pulls j lx).2
  omega

theorem pulls_length (k : Nat) (lx : Lexer) :
    (pulls k lx).1.length ≤ lx.raw_data.length := by
  induction k generalizing lx with
  | zero => simp [pulls]
  | succ k ih =>
    rcases hn : lx.next with ⟨ro, lx'⟩
    cases ro with
    | none => simp [pulls, hn]
    | some t =>
      simp only [pulls, hn, List.length_cons]
      have h1 := next_some_length hn
      have h2 := ih lx'
      omega

theorem lex_eq_single {cs : List Char} {t : Token} {l' : Nat}
    (h : (from_text cs).next = (some t, ⟨[], l'⟩)) : lex cs = [t] := by
  unfold lex
  simp [pulls, h, pulls_nil]

theorem lex_nil_of_next_none {cs : List Char} {lx' : Lexer}
    (h : (from_text cs).next = (none, lx')) : lex cs = [] := by
  unfold lex
  simp [pulls, h]

theorem dropWhile_space_of_head {c : Char} (rest : List Char) (h : (c == ' ') = false) :
    (c :: rest).dropWhile (fun d => d == ' ') = c :: rest := by
  rw [List.dropWhile_cons]
  simp [h]

/-! ### Line stability on marker-free input -/

theorem nextStep_line_stable (recur : List Char → Nat → Option Token × List Char × Nat)
    (hrec : ∀ cs l, (∀ c ∈ cs, ¬(c = '\r' ∨ c = '\n')) → (recur cs l).2.2 = l)
    (cs1 : List Char) (line : Nat) (hno : ∀ c ∈ cs1, ¬(c = '\r' ∨ c = '\n')) :
    (nextStep recur cs1 line).2.2 = line := by
  match cs1 with
  | [] => rw [nextStep_nil]
  | c :: rest =>
    cases hE : matchEndLine (c :: rest) with
    | some rem =>
      obtain ⟨_, hc⟩ := matchEndLine_some hE
      exact absurd hc (hno c (List.mem_cons_self c rest))
    | none =>
    cases hI : matchInteger (c :: rest) with
    | some p =>
      obtain ⟨ds, rem⟩ := p
      rw [nextStep_int recur line hE hI]
      split <;> rfl
    | none =>
    cases hS : matchString (c :: rest) with
    | some p =>
      obtain ⟨s, rem⟩ := p
      rw [nextStep_str recur line hE hI hS]
    | none =>
    cases hC : matchComment (c :: rest) with
    | some rem =>
      rw [nextStep_comment recur line hE hI hS hC]
      obtain ⟨rest0, hshape, hrem⟩ := matchComment_some hC
      have hno' : ∀ d ∈ rem.dropWhile (fun d => d == ' '), ¬(d = '\r' ∨ d = '\n') := by
        intro d hd
        apply hno
        rw [hshape]
        have hd1 : d ∈ rem := mem_of_mem_dropWhile hd
        rw [hrem] at hd1
        have hd2 : d ∈ rest0 := mem_of_mem_dropWhile hd1
        exact List.mem_cons_of_mem _ (List.mem_cons_of_mem _ hd2)
      have hst := hrec _ line hno'
      split
      · rename_i rem2 line2 heq
        rw [heq] at hst
        exact hst
      · rename_i t' rem2 line2 heq
        rw [heq] at hst
        exact hst
    | none =>
    cases hY : matchSymbol (c :: rest) with
    | some p =>
      obtain ⟨s, rem⟩ := p
      rw [nextStep_sym recur line hE hI hS hC hY]
    | none =>
    cases hId : matchIdentifier (c :: rest) with
    | some p =>
      obtain ⟨s, rem⟩ := p
      rw [nextStep_ident recur line hE hI hS hC hY hId]
    | none =>
      rw [nextStep_err recur line hE hI hS hC hY hId]

theorem nextCore_line_stable (fuel : Nat) : ∀ (cs1 : List Char) (line : Nat),
    (∀ c ∈ cs1, ¬(c = '\r' ∨ c = '\n')) → (nextCore fuel cs1 line).2.2 = line := by
  induction fuel with
  | zero =>
    intro cs1 line hno
    rw [nextCore_zero]
    exact nextStep_line_stable _ (fun cs l _ => rfl) cs1 line hno
  | succ fuel ih =>
    intro cs1 line hno
    rw [nextCore_succ]
    exact nextStep_line_stable _ (fun cs l h => ih cs l h) cs1 line hno

theorem next_line_stable {lx : Lexer} (hno : ∀ c ∈ lx.raw_data, ¬(c = '\r' ∨ c = '\n'))
    {ro : Option Token} {lx' : Lexer} (h : lx.next = (ro, lx')) :
    lx'.line_count = lx.line_count := by
  rw [Lexer.next_eq] at h
  simp only [Prod.mk.injEq] at h
  obtain ⟨h1, h2⟩ := h
  rw [← h2]
  exact nextCore_line_stable _ _ _ (fun c hc => hno c (mem_of_mem_dropWhile hc))

/-! ### Further wrapper helpers -/

theorem from_text_eq (cs : List Char) : from_text cs = ⟨cs, 1⟩ := rfl

theorem next_mk (cs : List Char) (line : Nat) :
    Lexer.next ⟨cs, line⟩ =
      ((nextCore cs.length (cs.dropWhile (fun c => c == ' ')) line).1,
       ⟨(nextCore cs.length (cs.dropWhile (fun c => c == ' ')) line).2.1,
        (nextCore cs.length (cs.dropWhile (fun c => c == ' ')) line).2.2⟩) := rfl

theorem nextCore_step_indep (fuel : Nat) (cs1 : List Char) (line : Nat)
    (res : Option Token × List Char × Nat)
    (h : ∀ recur, nextStep recur cs1 line = res) : nextCore fuel cs1 line = res := by
  cases fuel with
  | zero => rw [nextCore_zero]; exact h _
  | succ fuel => rw [nextCore_succ]; exact h _











/-! ### The source's if/else chain agrees with the spec's rule table -/

theorem nextStep_eq_dispatchStep (recur : List Char → Nat → Option Token × List Char × Nat)
    (cs1 : List Char) (line : Nat) :
    nextStep recur cs1 line = dispatchStep recur cs1 line := by
  match cs1 with
  | [] => rfl
  | c :: rest =>
    cases hE : matchEndLine (c :: rest) with
    | some rem =>
      rw [nextStep_eol recur line hE]
      simp [dispatchStep, firstMatch, priorityRules, endLineRule, hE]
    | none =>
    cases hI : matchInteger (c :: rest) with
    | some p =>
      obtain ⟨ds, rem⟩ := p
      rw [nextStep_int recur line hE hI]
      by_cases hp : parseNat ds ≤ i32Max <;>
        simp [dispatchStep, firstMatch, priorityRules, endLineRule, integerRule, hE, hI, hp]
    | none =>
    cases hS : matchString (c :: rest) with
    | some p =>
      obtain ⟨s, rem⟩ := p
      rw [nextStep_str recur line hE hI hS]
      simp [dispatchStep, firstMatch, priorityRules, endLineRule, integerRule, stringRule,
        hE, hI, hS]
    | none =>
    cases hC : matchComment (c :: rest) with
    | some rem =>
      rw [nextStep_comment recur line hE hI hS hC]
      simp only [dispatchStep, firstMatch, priorityRules, endLineRule, integerRule, stringRule,
        commentRule, hE, hI, hS, hC, Option.map_none', Option.map_some']
    | none =>
    cases hY : matchSymbol (c :: rest) with
    | some p =>
      obtain ⟨s, rem⟩ := p
      rw [nextStep_sym recur line hE hI hS hC hY]
      simp [dispatchStep, firstMatch, priorityRules, endLineRule, integerRule, stringRule,
        commentRule, symbolRule, hE, hI, hS, hC, hY]
    | none =>
    cases hId : matchIdentifier (c :: rest) with
    | some p =>
      obtain ⟨s, rem⟩ := p
      rw [nextStep_ident recur line hE hI hS hC hY hId]
      simp [dispatchStep, firstMatch, priorityRules, endLineRule, integerRule, stringRule,
        commentRule, symbolRule, identifierRule, hE, hI, hS, hC, hY, hId]
    | none =>
      rw [nextStep_err recur line hE hI hS hC hY hId]
      simp [dispatchStep, firstMatch, priorityRules, endLineRule, integerRule, stringRule,
        commentRule, symbolRule, identifierRule, hE, hI, hS, hC, hY, hId]

/-! ### Claims -/

/-- C1, counterexample: the claim says `line_count` always equals the number
of end-of-line marker characters (CR or LF) consumed so far plus one.  On
the input `"a<LF>b"` (a string literal spanning a line feed) one pull
consumes the whole literal, including one line-feed character, yet
`line_count` stays 1, not 2. -/
theorem C1_counterexample :
    eolCount ['"', 'a', '\n', 'b', '"'] -
        eolCount (pulls 1 (from_text ['"', 'a', '\n', 'b', '"'])).2.raw_data = 1 ∧
    (pulls 1 (from_text ['"', 'a', '\n', 'b', '"'])).2.line_count = 1 ∧
    (pulls 1 (from_text ['"', 'a', '\n', 'b', '"'])).2.line_count ≠
      1 + (eolCount ['"', 'a', '\n', 'b', '"'] -
          eolCount (pulls 1 (from_text ['"', 'a', '\n', 'b', '"'])).2.raw_data) := by
  decide

/-- C1 (amended): `line_count` starts at 1, is monotonically non-decreasing
across pulls, and after any number of pulls equals the number of `EndLine`
tokens produced so far plus one (equivalently, the number of end-of-line
markers consumed by the end-of-line rule plus one; markers absorbed into a
string literal or comment do not count). -/
theorem C1_line_count (cs : List Char) (k j : Nat) (hjk : j ≤ k) :
    (from_text cs).line_count = 1 ∧
    (pulls k (from_text cs)).2.line_count = 1 + countEndLine (pulls k (from_text cs)).1 ∧
    (pulls j (from_text cs)).2.line_count ≤ (pulls k (from_text cs)).2.line_count := by
  refine ⟨rfl, ?_, pulls_line_mono hjk _⟩
  rw [pulls_line k (from_text cs)]
  rfl

theorem C1_line_count_witness :
    1 ≤ 3 ∧
    ((from_text ("a\nb".toList)).line_count = 1 ∧
     (pulls 3 (from_text ("a\nb".toList))).2.line_count =
       1 + countEndLine (pulls 3 (from_text ("a\nb".toList))).1 ∧
     (pulls 1 (from_text ("a\nb".toList))).2.line_count ≤
       (pulls 3 (from_text ("a\nb".toList))).2.line_count) :=
  ⟨by decide, C1_line_count ("a\nb".toList) 3 1 (by decide)⟩

/-- C5: when the character at the cursor (after skipping spaces) matches no
lexical rule, the pull consumes exactly that one character and fails with an
`UnexpectedToken` error naming it; in particular the input `@` yields a
single failure naming `@`. -/
theorem C5_unexpected_token :
    (∀ (cs : List Char) (c : Char) (rest : List Char) (line : Nat),
        cs.dropWhile (fun d => d == ' ') = c :: rest →
        matchEndLine (c :: rest) = none → matchInteger (c :: rest) = none →
        matchString (c :: rest) = none → matchComment (c :: rest) = none →
        matchSymbol (c :: rest) = none → matchIdentifier (c :: rest) = none →
        Lexer.next ⟨cs, line⟩ =
          (some ⟨Except.error (unexpectedTokenMsg c), line⟩, ⟨rest, line⟩)) ∧
    lex ['@'] = [⟨Except.error (unexpectedTokenMsg '@'), 1⟩] := by
  constructor
  · intro cs c rest line hdrop hE hI hS hC hY hId
    rw [next_mk, hdrop, nextCore_step_indep cs.length (c :: rest) line _
      (fun recur => nextStep_err recur line hE hI hS hC hY hId)]
  · decide

theorem C5_unexpected_token_witness :
    matchIdentifier ['@'] = none ∧
    Lexer.next ⟨['@'], 7⟩ = (some ⟨Except.error (unexpectedTokenMsg '@'), 7⟩, ⟨[], 7⟩) :=
  ⟨by decide, C5_unexpected_token.1 ['@'] '@' [] 7 (by decide) (by decide) (by decide)
    (by decide) (by decide) (by decide) (by decide)⟩

/-- C6: lexing `x <- 5` yields `Identifier("x")`, `Symbol("<-")`,
`Literal(Integer(5))` in order, each carrying line number 1, followed by the
terminal end-of-input signal. -/
theorem C6_x_arrow_5 :
    lex ("x <- 5".toList) =
      [⟨Except.ok (TokenKind.Identifier ['x']), 1⟩,
       ⟨Except.ok (TokenKind.Symbol ['<', '-']), 1⟩,
       ⟨Except.ok (TokenKind.Literal (Literal.Integer 5)), 1⟩] ∧
    (pulls 3 (from_text ("x <- 5".toList))).2.next = (none, ⟨[], 1⟩) := by
  decide

/-- C9: every pull that produces a token (or failure token) consumes at
least one character, the pull sequence is bounded in length by the input
length, and a pull on exhausted input yields the terminal end-of-input
signal. -/
theorem C9_finite_pull_sequence :
    (∀ (lx : Lexer) (t : Token) (lx' : Lexer),
        lx.next = (some t, lx') → lx'.raw_data.length < lx.raw_data.length) ∧
    (∀ cs : List Char, (lex cs).length ≤ cs.length) ∧
    (∀ line : Nat, (Lexer.mk [] line).next = (none, ⟨[], line⟩)) := by
  refine ⟨fun lx t lx' h => next_some_length h, fun cs => ?_, fun line => rfl⟩
  unfold lex
  exact pulls_length _ _

theorem C9_finite_pull_sequence_witness :
    Lexer.next ⟨['a', 'b'], 1⟩ =
      (some ⟨Except.ok (TokenKind.Identifier ['a', 'b']), 1⟩, ⟨[], 1⟩) ∧
    (Lexer.mk [] 1).raw_data.length < (Lexer.mk ['a', 'b'] 1).raw_data.length :=
  ⟨by decide, C9_finite_pull_sequence.1 ⟨['a', 'b'], 1⟩
    ⟨Except.ok (TokenKind.Identifier ['a', 'b']), 1⟩ ⟨[], 1⟩ (by decide)⟩

/-- C10: an opening double quote with no later double quote anywhere in the
remaining input does not match the string rule; the pull consumes exactly
the opening quote and fails with an `UnexpectedToken` error naming `"`. -/
theorem C10_unterminated_string (cs rest : List Char) (line : Nat)
    (hdrop : cs.dropWhile (fun d => d == ' ') = '"' :: rest)
    (hq : '"' ∉ rest) :
    matchString ('"' :: rest) = none ∧
    Lexer.next ⟨cs, line⟩ =
      (some ⟨Except.error (unexpectedTokenMsg '"'), line⟩, ⟨rest, line⟩) := by
  have hS : matchString ('"' :: rest) = none := by
    simp only [matchString]
    rw [if_pos trivial]
    have hdw : rest.dropWhile (fun d => !(d == '"')) = [] := by
      apply dropWhile_all
      intro a ha
      simp only [Bool.not_eq_true', beq_eq_false_iff_ne]
      exact fun hc => hq (hc ▸ ha)
    rw [hdw]
  refine ⟨hS, ?_⟩
  have hE : matchEndLine ('"' :: rest) = none := matchEndLine_none_of_not_eol rest (by decide)
  have hI : matchInteger ('"' :: rest) = none := matchInteger_none_of_not_digit rest (by decide)
  have hC : matchComment ('"' :: rest) = none := matchComment_none_of_ne_slash rest (by decide)
  have hY : matchSymbol ('"' :: rest) = none :=
    matchSymbol_none_of_head rest (by decide) (by decide)
  have hId : matchIdentifier ('"' :: rest) = none :=
    matchIdentifier_none_of_not_start rest (by decide)
  rw [next_mk, hdrop, nextCore_step_indep cs.length ('"' :: rest) line _
    (fun recur => nextStep_err recur line hE hI hS hC hY hId)]

theorem C10_unterminated_string_witness :
    (['"', 'a', 'b'].dropWhile (fun d => d == ' ') = '"' :: ['a', 'b'] ∧
      '"' ∉ (['a', 'b'] : List Char)) ∧
    (matchString ('"' :: ['a', 'b']) = none ∧
     Lexer.next ⟨['"', 'a', 'b'], 4⟩ =
       (some ⟨Except.error (unexpectedTokenMsg '"'), 4⟩, ⟨['a', 'b'], 4⟩)) :=
  ⟨⟨by decide, by decide⟩,
    C10_unterminated_string ['"', 'a', 'b'] ['a', 'b'] 4 (by decide) (by decide)⟩

/-- C2: a pull that recognizes a comment produces no token for the comment
itself and yields what the next pull yields: a comment at end of input
yields the terminal end-of-input signal; `// comment\n42` yields exactly one
`EndLine` token followed by one `Literal(Integer(42))` token; and whatever
the nested pull after the comment produces (token or failure) is handed to
the caller of the comment-containing pull. -/
theorem C2_comment_pull :
    (∀ s : List Char, (∀ c ∈ s, ¬(c = '\n')) → lex ('/' :: '/' :: s) = []) ∧
    (List.map Token.token_kind (lex ("// comment\n42".toList)) =
      [Except.ok TokenKind.EndLine,
       Except.ok (TokenKind.Literal (Literal.Integer 42))] ∧
     List.map Token.token_kind (lex ("// comment\r\n42".toList)) =
      [Except.ok TokenKind.EndLine,
       Except.ok (TokenKind.Literal (Literal.Integer 42))]) ∧
    (∀ (s : List Char) (line : Nat) (t : Token) (lx' : Lexer),
        Lexer.next ⟨s.dropWhile (fun d => !(d == '\n')), line⟩ = (some t, lx') →
        Lexer.next ⟨'/' :: '/' :: s, line⟩ =
          (some ⟨t.token_kind, lx'.line_count⟩, lx')) := by
  refine ⟨?_, ⟨by decide, by decide⟩, ?_⟩
  · intro s hs
    have hE : matchEndLine ('/' :: '/' :: s) = none :=
      matchEndLine_none_of_not_eol _ (by decide)
    have hI : matchInteger ('/' :: '/' :: s) = none :=
      matchInteger_none_of_not_digit _ (by decide)
    have hStr : matchString ('/' :: '/' :: s) = none :=
      matchString_none_of_ne_quote _ (by decide)
    have hrem : s.dropWhile (fun d => !(d == '\n')) = [] := by
      apply dropWhile_all
      intro a ha
      simp only [Bool.not_eq_true', beq_eq_false_iff_ne]
      exact hs a ha
    have hC : matchComment ('/' :: '/' :: s) = some [] := by
      simp only [matchComment]
      rw [if_pos ⟨trivial, trivial⟩, hrem]
    have hnext : (from_text ('/' :: '/' :: s)).next = (none, ⟨[], 1⟩) := by
      rw [from_text_eq, next_mk, List.length_cons, List.length_cons,
          dropWhile_space_of_head _ (by decide), nextCore_succ,
          nextStep_comment _ 1 hE hI hStr hC, List.dropWhile_nil, nextCore_nil]
    exact lex_nil_of_next_none hnext
  · intro s line t lx' h
    have hE : matchEndLine ('/' :: '/' :: s) = none :=
      matchEndLine_none_of_not_eol _ (by decide)
    have hI : matchInteger ('/' :: '/' :: s) = none :=
      matchInteger_none_of_not_digit _ (by decide)
    have hStr : matchString ('/' :: '/' :: s) = none :=
      matchString_none_of_ne_quote _ (by decide)
    have hC : matchComment ('/' :: '/' :: s) =
        some (s.dropWhile (fun d => !(d == '\n'))) := by
      simp only [matchComment]
      rw [if_pos ⟨trivial, trivial⟩]
    rw [next_mk] at h
    simp only [Prod.mk.injEq] at h
    obtain ⟨h1, h2⟩ := h
    rw [next_mk, List.length_cons, List.length_cons,
        dropWhile_space_of_head _ (by decide), nextCore_succ,
        nextStep_comment _ line hE hI hStr hC]
    have hfuel : nextCore (s.length + 1)
          ((s.dropWhile (fun d => !(d == '\n'))).dropWhile (fun d => d == ' ')) line
        = nextCore (s.dropWhile (fun d => !(d == '\n'))).length
          ((s.dropWhile (fun d => !(d == '\n'))).dropWhile (fun d => d == ' ')) line := by
      apply nextCore_fuel_irrel
      · exact Nat.le_trans (length_dropWhile_le _ _)
          (Nat.le_trans (length_dropWhile_le _ _) (Nat.le_succ _))
      · exact length_dropWhile_le _ _
    rw [hfuel]
    have hr : nextCore (s.dropWhile (fun d => !(d == '\n'))).length
          ((s.dropWhile (fun d => !(d == '\n'))).dropWhile (fun d => d == ' ')) line
        = (some t, lx'.raw_data, lx'.line_count) := by
      rw [← h2, ← h1]
    rw [hr]

theorem C2_comment_pull_witness :
    lex ('/' :: '/' :: ("x".toList)) = [] ∧
    Lexer.next ⟨'/' :: '/' :: ("c\n@".toList), 5⟩ =
      (some ⟨Except.ok TokenKind.EndLine, 6⟩, ⟨['@'], 6⟩) :=
  ⟨C2_comment_pull.1 ("x".toList) (by decide),
   C2_comment_pull.2.2 ("c\n@".toList) 5 ⟨Except.ok TokenKind.EndLine, 6⟩ ⟨['@'], 6⟩
     (by decide)⟩

/-- C3: lexing a single run of decimal digits alone yields one
`Literal(Integer)` token with the parsed value exactly when the value is
within the signed 32-bit range, and otherwise one `InvalidInteger` failure
naming the digit text. -/
theorem C3_integer_literal (ds : List Char) (hne : ds ≠ [])
    (hd : ∀ c ∈ ds, isDigitChar c = true) :
    lex ds =
      if parseNat ds ≤ i32Max then
        [⟨Except.ok (TokenKind.Literal (Literal.Integer (parseNat ds))), 1⟩]
      else
        [⟨Except.error (invalidIntegerMsg ds), 1⟩] := by
  match ds, hne with
  | d :: rest, _ =>
    have hd0 : isDigitChar d = true := hd d (List.mem_cons_self d rest)
    have hdrop : (d :: rest).dropWhile (fun c => c == ' ') = d :: rest :=
      dropWhile_space_of_head rest (digit_not_space hd0)
    have hE : matchEndLine (d :: rest) = none :=
      matchEndLine_none_of_not_eol rest (digit_not_eol hd0)
    have hI : matchInteger (d :: rest) = some (d :: rest, []) := by
      simp only [matchInteger]
      rw [if_pos hd0,
          takeWhile_all (fun a ha => hd a (List.mem_cons_of_mem d ha)),
          dropWhile_all (fun a ha => hd a (List.mem_cons_of_mem d ha))]
    by_cases hle : parseNat (d :: rest) ≤ i32Max
    · have hnext : (from_text (d :: rest)).next =
          (some ⟨Except.ok (TokenKind.Literal (Literal.Integer (parseNat (d :: rest)))), 1⟩,
           ⟨[], 1⟩) := by
        rw [from_text_eq, next_mk, hdrop,
            nextCore_step_indep _ _ _ _ (fun recur => nextStep_int recur 1 hE hI),
            if_pos hle]
      rw [lex_eq_single hnext, if_pos hle]
    · have hnext : (from_text (d :: rest)).next =
          (some ⟨Except.error (invalidIntegerMsg (d :: rest)), 1⟩, ⟨[], 1⟩) := by
        rw [from_text_eq, next_mk, hdrop,
            nextCore_step_indep _ _ _ _ (fun recur => nextStep_int recur 1 hE hI),
            if_neg hle]
      rw [lex_eq_single hnext, if_neg hle]

theorem C3_integer_literal_witness :
    (lex ("42".toList) =
      if parseNat ("42".toList) ≤ i32Max then
        [⟨Except.ok (TokenKind.Literal (Literal.Integer (parseNat ("42".toList)))), 1⟩]
      else [⟨Except.error (invalidIntegerMsg ("42".toList)), 1⟩]) ∧
    (lex ("9999999999".toList) =
      if parseNat ("9999999999".toList) ≤ i32Max then
        [⟨Except.ok (TokenKind.Literal (Literal.Integer (parseNat ("9999999999".toList)))), 1⟩]
      else [⟨Except.error (invalidIntegerMsg ("9999999999".toList)), 1⟩]) :=
  ⟨C3_integer_literal _ (by decide) (by decide),
   C3_integer_literal _ (by decide) (by decide)⟩

/-- C4: for every string `s` without a double quote, lexing `"s"` yields
exactly one `Literal(Str)` token whose payload is exactly `s`, quotes
stripped, with no escape processing. -/
theorem C4_string_literal (s : List Char) (hs : '"' ∉ s) :
    lex ('"' :: (s ++ ['"'])) =
      [⟨Except.ok (TokenKind.Literal (Literal.Str s)), 1⟩] := by
  have hpred : ∀ a ∈ s, (fun d => !(d == '"')) a = true := by
    intro a ha
    simp only [Bool.not_eq_true', beq_eq_false_iff_ne]
    exact fun hc => hs (hc ▸ ha)
  have h1 : (s ++ ['"']).dropWhile (fun d => !(d == '"')) = ['"'] := by
    rw [dropWhile_append_all ['"'] hpred]
    decide
  have h2 : (s ++ ['"']).takeWhile (fun d => !(d == '"')) = s := by
    rw [takeWhile_append_all ['"'] hpred,
        show (['"'] : List Char).takeWhile (fun d => !(d == '"')) = [] from by decide,
        List.append_nil]
  have hS : matchString ('"' :: (s ++ ['"'])) = some (s, []) := by
    simp only [matchString, h1, h2]
    rw [if_pos trivial]
  have hE : matchEndLine ('"' :: (s ++ ['"'])) = none :=
    matchEndLine_none_of_not_eol _ (by decide)
  have hI : matchInteger ('"' :: (s ++ ['"'])) = none :=
    matchInteger_none_of_not_digit _ (by decide)
  have hnext : (from_text ('"' :: (s ++ ['"']))).next =
      (some ⟨Except.ok (TokenKind.Literal (Literal.Str s)), 1⟩, ⟨[], 1⟩) := by
    rw [from_text_eq, next_mk, dropWhile_space_of_head _ (by decide),
        nextCore_step_indep _ _ _ _ (fun recur => nextStep_str recur 1 hE hI hS)]
  exact lex_eq_single hnext

theorem C4_string_literal_witness :
    '"' ∉ (['a', 'b'] : List Char) ∧
    lex ('"' :: (['a', 'b'] ++ ['"'])) =
      [⟨Except.ok (TokenKind.Literal (Literal.Str ['a', 'b'])), 1⟩] :=
  ⟨by decide, C4_string_literal ['a', 'b'] (by decide)⟩

/-- C7: classification tries the rules in the fixed priority order EndLine,
Integer, String, Comment, Symbol, Identifier, taking the first rule that
matches at the cursor (the source's if/else chain equals first-match-wins
over the spec's ordered rule table); in particular `12abc` lexes as
`Literal(Integer(12))` then `Identifier("abc")`. -/
theorem C7_priority_first_match :
    (∀ (fuel : Nat) (cs1 : List Char) (line : Nat),
        nextCore fuel cs1 line = dispatchCore fuel cs1 line) ∧
    List.map Token.token_kind (lex ("12abc".toList)) =
      [Except.ok (TokenKind.Literal (Literal.Integer 12)),
       Except.ok (TokenKind.Identifier ['a', 'b', 'c'])] := by
  constructor
  · intro fuel
    induction fuel with
    | zero =>
      intro cs1 line
      rw [nextCore_zero]
      exact nextStep_eq_dispatchStep _ cs1 line
    | succ fuel ih =>
      intro cs1 line
      have hfun : nextCore fuel = dispatchCore fuel :=
        funext fun a => funext fun b => ih a b
      rw [nextCore_succ, nextStep_eq_dispatchStep (nextCore fuel) cs1 line, hfun]
      rfl
  · decide

/-- C8, counterexample: the input `//<CR><LF>a` consists of two end-of-line
markers with non-newline content interspersed (`//` before, `a` after), yet
the first token produced after the last marker (the identifier `a`) carries
line number 2, not 2 + 1: the comment rule absorbed the carriage return, so
only the line feed produced an `EndLine` token. -/
theorem C8_counterexample :
    eolCount ['/', '/', '\r', '\n', 'a'] = 2 ∧
    (pulls 1 (from_text ['/', '/', '\r', '\n', 'a'])).2.raw_data = ['a'] ∧
    (pulls 1 (from_text ['/', '/', '\r', '\n', 'a'])).2.next =
      (some ⟨Except.ok (TokenKind.Identifier ['a']), 2⟩, ⟨[], 2⟩) ∧
    (2 : Nat) ≠ eolCount ['/', '/', '\r', '\n', 'a'] + 1 := by
  decide

/-- C8 (amended): write the input as `pre ++ [m] ++ post` where `m` is the
last end-of-line marker and `post` (the content after it) contains no
marker.  If after `k` pulls exactly `post` remains and the next pull
produces a token `t`, then `t` carries line number `E + 1` where `E` is the
number of `EndLine` tokens produced in those `k` pulls.  (`E` equals the
number of markers whenever every marker is consumed by the end-of-line
rule; a marker absorbed into a string literal or comment is not counted.) -/
theorem C8_line_after_last_marker (pre post : List Char) (m : Char) (k : Nat)
    (t : Token) (lx' : Lexer)
    (_hm : m = '\r' ∨ m = '\n')
    (hpost : ∀ c ∈ post, ¬(c = '\r' ∨ c = '\n'))
    (hstate : (pulls k (from_text (pre ++ m :: post))).2.raw_data = post)
    (hnext : (pulls k (from_text (pre ++ m :: post))).2.next = (some t, lx')) :
    t.line = 1 + countEndLine (pulls k (from_text (pre ++ m :: post))).1 := by
  have h1 : t.line = lx'.line_count := (next_some_line hnext).1
  have h2 : lx'.line_count = (pulls k (from_text (pre ++ m :: post))).2.line_count := by
    apply next_line_stable _ hnext
    rw [hstate]
    exact hpost
  have h3 := pulls_line k (from_text (pre ++ m :: post))
  rw [h1, h2]
  exact h3

theorem C8_line_after_last_marker_witness :
    (pulls 2 (from_text (['a'] ++ '\n' :: ['b']))).2.raw_data = ['b'] ∧
    (⟨Except.ok (TokenKind.Identifier ['b']), 2⟩ : Token).line =
      1 + countEndLine (pulls 2 (from_text (['a'] ++ '\n' :: ['b']))).1 :=
  ⟨by decide,
   C8_line_after_last_marker ['a'] ['b'] '\n' 2
     ⟨Except.ok (TokenKind.Identifier ['b']), 2⟩ ⟨[], 2⟩
     (by decide) (by decide) (by decide) (by decide)⟩

end PseudoLexer
